import Mathlib

/-!
# Verification of the EDOS analytics dashboard's filtering/aggregation engine

Shallow embedding of the data-transformation core of the dashboard
(`components/PricingIntelligence` in `src/components/Centers.tsx` and the
`TestExplorer` debounced fetch in `src/components/Layout.tsx`), together with
theorems settling the specification claims about it.

Modelling conventions:
* JavaScript numbers are modelled as exact rationals extended with the special
  values `Infinity`, `-Infinity` and `NaN` (`JNum`) where those can arise.
* The string field `mrp` is modelled by the outcome of `parseFloat` on it:
  `none` stands for a non-numeric string (`parseFloat` returns `NaN`),
  `some q` for a string parsing to the finite number `q`.
* JavaScript objects used as accumulator maps (string keys, insertion order
  preserved by `Object.entries` for non-index keys such as department names)
  are modelled as insertion-ordered association lists.
* `Array.prototype.sort` with a consistent comparator is stable (ES2019);
  it is modelled by a stable insertion sort.
-/

namespace Edos

/-! ## JavaScript number model -/

/-- A JavaScript number as produced by the arithmetic in the source:
a finite value (exact rational), one of the two infinities, or `NaN`. -/
inductive JNum where
  | num (q : ℚ)
  | posInf
  | negInf
  | nan
  deriving DecidableEq

/-- JavaScript `Math.round` on a finite value: round half toward `+∞`,
i.e. `Math.round x = ⌊x + 0.5⌋`. -/
def jround (q : ℚ) : ℤ := ⌊q + 1/2⌋

/-- `x || 0` on a JavaScript number: the falsy numbers `0` and `NaN` are
replaced by `0`; every other number (including `±Infinity`) is kept. -/
def jsOrZero (x : JNum) : JNum :=
  match x with
  | .nan => .num 0
  | .num q => if q = 0 then .num 0 else .num q
  | x => x

/-- `Math.round` lifted to `JNum` (`Math.round NaN = NaN`, infinities kept). -/
def jsRound (x : JNum) : JNum :=
  match x with
  | .num q => .num (jround q)
  | x => x

/-- JavaScript division of finite values: `0/0 = NaN`, `a/0 = ±Infinity`
for `a ≠ 0`, ordinary division otherwise. -/
def jdiv (a b : ℚ) : JNum :=
  if b = 0 then (if a = 0 then .nan else if 0 < a then .posInf else .negInf)
  else .num (a / b)

/-- `Math.min(...l)` over a list of finite numbers: `Infinity` on the empty
list, otherwise the least element. -/
def jsMin (l : List ℚ) : JNum :=
  match l with
  | [] => .posInf
  | x :: xs => .num (xs.foldl min x)

/-- `Math.max(...l)` over a list of finite numbers: `-Infinity` on the empty
list, otherwise the greatest element. -/
def jsMax (l : List ℚ) : JNum :=
  match l with
  | [] => .negInf
  | x :: xs => .num (xs.foldl max x)

/-! ## JavaScript string and array helpers -/

/-- JavaScript `String.prototype.toLowerCase`, modelled characterwise
(agreeing with it on ASCII data). -/
def jsToLower (s : String) : String :=
  ⟨s.data.map Char.toLower⟩

/-- `needle.isPrefixOf hay` at every suffix of `hay`: the model of
`String.prototype.includes` over character lists. -/
def includesAux (needle : List Char) : List Char → Bool
  | [] => needle.isEmpty
  | c :: cs => needle.isPrefixOf (c :: cs) || includesAux needle cs

/-- JavaScript `hay.includes(needle)`: `needle` occurs contiguously in `hay`
(the empty needle always occurs). -/
def strIncludes (hay needle : String) : Bool :=
  includesAux needle.data hay.data

/-- JavaScript `String.prototype.trim`: strip whitespace from both ends
(whitespace modelled by `Char.isWhitespace`). -/
def jsTrim (s : String) : String :=
  ⟨((s.data.dropWhile Char.isWhitespace).reverse.dropWhile Char.isWhitespace).reverse⟩

/-- JavaScript `Array.prototype.slice(start, stop)` for non-negative
arguments: the elements at indices `start ≤ i < stop` (clamped to the array,
never throwing). -/
def jsSlice (l : List α) (start stop : Nat) : List α :=
  (l.drop start).take (stop - start)

/-! ## Insertion-ordered accumulator maps (JavaScript object literals) -/

/-- Update an insertion-ordered association list at key `k`: apply `f` to the
stored value if `k` is present, otherwise append `(k, f v0)` at the end.
This is `m[k] = f (m[k] ?? v0)` on a JavaScript object: a fresh key goes last,
an existing key keeps its position. -/
def upsert [DecidableEq κ] (f : ν → ν) (v0 : ν) (k : κ) : List (κ × ν) → List (κ × ν)
  | [] => [(k, f v0)]
  | p :: rest => if p.1 = k then (p.1, f p.2) :: rest else p :: upsert f v0 k rest

/-- Fold a collection into an insertion-ordered accumulator map: the model of
the `forEach`-over-object-literal pattern of the source. -/
def accum [DecidableEq κ] (keyf : α → κ) (valf : α → ν → ν) (v0 : ν) (l : List α) :
    List (κ × ν) :=
  l.foldl (fun m x => upsert (valf x) v0 (keyf x) m) []

/-- Fold the per-key update function over one key's group of collection
elements, in collection order. -/
def groupFold (valf : α → ν → ν) (v : ν) (xs : List α) : ν :=
  xs.foldl (fun v x => valf x v) v

/-- The keys of `ks` not already in `seen`, each kept at its first
occurrence. -/
def newKeys [DecidableEq κ] (seen : List κ) : List κ → List κ
  | [] => []
  | k :: ks => if k ∈ seen then newKeys seen ks else k :: newKeys (k :: seen) ks

/-- All keys of `ks`, each kept at its first occurrence: the key order of a
JavaScript object built by insertion (non-index string keys). -/
def firstSeen [DecidableEq κ] (ks : List κ) : List κ :=
  newKeys [] ks

/-! ## Stable sorting (JavaScript `Array.prototype.sort`) -/

/-- Insert `x` into `l`, placing it directly before the first element `y`
with `before x y = true`. -/
def insertSorted (before : α → α → Bool) (x : α) : List α → List α
  | [] => [x]
  | y :: ys => if before x y then x :: y :: ys else y :: insertSorted before x ys

/-- Stable insertion sort: the observable behaviour of JavaScript's stable
`sort` under a consistent comparator, where `before x y` states that `x` may
stay in front of `y` (so an element is placed before every later-input
element it compares equal to). -/
def sortBy (before : α → α → Bool) : List α → List α
  | [] => []
  | x :: xs => insertSorted before x (sortBy before xs)

/-! ## Data model (`types.ts`)

`PricingEntry` matches the rows of `GET /pricing/enriched`.  The source
declares `mrp : string`; here it is modelled by its `parseFloat` outcome
(`none` = `NaN`, `some q` = the finite number `q`). -/

structure PricingEntry where
  test_code : String
  test_name : String
  department : String
  city : String
  mrp : Option ℚ
  tat : String
  deriving DecidableEq

/-- `parseFloat(d.mrp) || 0`: the finite parse result, with the falsy
outcomes (`NaN` and `0`) replaced by `0`. -/
def priceOf (d : PricingEntry) : ℚ :=
  d.mrp.getD 0

/-- `d.department || 'Unknown'` (the empty string is the only falsy string). -/
def deptOf (d : PricingEntry) : String :=
  if d.department = "" then "Unknown" else d.department

/-! ## Predicate composer (`filteredData`, Centers.tsx pricing view) -/

/-- The filter predicate of `filteredData`: case-insensitive substring match
of the query against name or code, AND membership of the record's department
(resp. city) in the selected set whenever that set is non-empty. -/
def matchesFilters (query : String) (selectedDepts selectedCities : List String)
    (item : PricingEntry) : Bool :=
  (strIncludes (jsToLower item.test_name) (jsToLower query) ||
     strIncludes (jsToLower item.test_code) (jsToLower query)) &&
  (selectedDepts.isEmpty || decide (item.department ∈ selectedDepts)) &&
  (selectedCities.isEmpty || decide (item.city ∈ selectedCities))

/-- The filtered view over the record store. -/
def filteredData (data : List PricingEntry) (query : String)
    (selectedDepts selectedCities : List String) : List PricingEntry :=
  data.filter (matchesFilters query selectedDepts selectedCities)

/-! ## Comparison typeahead (`comparisonResults`) -/

/-- Candidate predicate of the comparison dropdown: name or code contains the
search string case-insensitively, and the code is not already selected. -/
def matchesComparison (search : String) (selectedTests : List String)
    (d : PricingEntry) : Bool :=
  (strIncludes (jsToLower d.test_name) (jsToLower search) ||
     strIncludes (jsToLower d.test_code) (jsToLower search)) &&
  !(decide (d.test_code ∈ selectedTests))

/-- `comparisonResults`: empty for a blank (all-whitespace) search string,
otherwise the first 8 matching records in store order. -/
def comparisonResults (data : List PricingEntry) (comparisonSearch : String)
    (selectedTests : List String) : List PricingEntry :=
  if jsTrim comparisonSearch = "" then []
  else (data.filter (matchesComparison comparisonSearch selectedTests)).take 8

/-! ## Comparison selection (`toggleSelection`)

The `Set<string>` of selected test codes is modelled as its insertion-ordered
element list (JavaScript sets iterate in insertion order and hold no
duplicates); `Set.delete` removes the unique occurrence. -/

/-- `toggleSelection`: delete the code if present, append it if absent. -/
def toggleSelection (prev : List String) (testCode : String) : List String :=
  if testCode ∈ prev then prev.erase testCode else prev ++ [testCode]

/-! ## Aggregation engine (`analytics`) -/

/-- The prices entering the numeric summary and the histogram:
`filteredData.map(d => parseFloat(d.mrp) || 0).filter(p => !isNaN(p) && p > 0)`
(after `|| 0` no `NaN` remains, so the filter keeps the positive values). -/
def includedPrices (fd : List PricingEntry) : List ℚ :=
  (fd.map priceOf).filter (fun p => decide (0 < p))

/-- One row of the department breakdown: `avg` is `Math.round(total/count)`,
an integer. -/
structure DeptStat where
  name : String
  avg : ℤ
  count : Nat
  deriving DecidableEq

/-- The `deptMap` accumulator: per department (first-seen order), the running
sum of `parseFloat(mrp) || 0` and the record count over the filtered view. -/
def deptMap (fd : List PricingEntry) : List (String × (ℚ × Nat)) :=
  accum deptOf (fun d tc => (tc.1 + priceOf d, tc.2 + 1)) ((0 : ℚ), (0 : Nat)) fd

/-- The descending-count comparator of `deptStats`
(`(a, b) => b.count - a.count`): under the stable sort, `a` may stay in front
of `b` exactly when `b.count ≤ a.count`. -/
def byCountDesc (a b : DeptStat) : Bool :=
  decide (b.count ≤ a.count)

/-- `deptStats`: map the accumulator to rows, stable-sort by descending
count, keep the top 15. -/
def deptStats (fd : List PricingEntry) : List DeptStat :=
  ((sortBy byCountDesc
      ((deptMap fd).map (fun p => ⟨p.1, jround (p.2.1 / (p.2.2 : ℚ)), p.2.2⟩))).take 15 :
    List DeptStat)

/-- Histogram bucket key: `Math.floor(p / 500) * 500` (bucket width 500). -/
def bucketKey (p : ℚ) : ℤ :=
  ⌊p / 500⌋ * 500

/-- The `buckets` accumulator: per bucket key (numeric, so modelled directly
as the integer), the number of included prices falling in the bucket. -/
def bucketMap (prices : List ℚ) : List (ℤ × Nat) :=
  accum bucketKey (fun _ n => n + 1) 0 prices

/-- `distribution`: the non-empty buckets in ascending key order.  (The final
presentation step renaming a bucket `b` to the label `₹b-(b+500)` keeps order
and counts and is omitted.) -/
def distribution (prices : List ℚ) : List (ℤ × Nat) :=
  sortBy (fun a b => decide (a.1 ≤ b.1)) (bucketMap prices)

/-- The `AnalyticsMetrics` record of the source.  `avgPrice`, `minPrice` and
`maxPrice` are JavaScript numbers (they can be `±Infinity` when no price is
included). -/
structure AnalyticsMetrics where
  avgPrice : JNum
  minPrice : JNum
  maxPrice : JNum
  deptStats : List DeptStat
  distribution : List (ℤ × Nat)
  deriving DecidableEq

/-- The `analytics` memo: `none` on an empty filtered view, otherwise the
numeric summary, department breakdown and histogram.
`avgPrice = Math.round(sum/count) || 0`, `minPrice = Math.min(...prices) || 0`,
`maxPrice = Math.max(...prices) || 0`. -/
def analytics (fd : List PricingEntry) : Option AnalyticsMetrics :=
  if fd.length = 0 then none
  else
    let prices := includedPrices fd
    some
      { avgPrice := jsOrZero (jsRound (jdiv prices.sum prices.length))
        minPrice := jsOrZero (jsMin prices)
        maxPrice := jsOrZero (jsMax prices)
        deptStats := deptStats fd
        distribution := distribution prices }

/-! ## Pagination slicer (`paginatedResults`) -/

/-- `ITEMS_PER_PAGE` of the pricing view. -/
def ITEMS_PER_PAGE : Nat := 15

/-- `filteredData.slice((page - 1) * ITEMS_PER_PAGE, page * ITEMS_PER_PAGE)`. -/
def paginatedResults (view : List α) (page : Nat) : List α :=
  jsSlice view ((page - 1) * ITEMS_PER_PAGE) (page * ITEMS_PER_PAGE)

/-! ## Pricing view filter edits and the page-reset effect

`useEffect(() => setPage(1), [query, selectedDepts, selectedCities])` runs
after a render exactly when one of its dependencies changed under `Object.is`.
`query` is a string and is compared by value (and a `setQuery` with the
identical string does not re-render at all); every `setSelectedDepts` /
`setSelectedCities` call allocates a fresh array, so the dependency changes
whenever such a setter runs.  The array identities are modelled by version
counters bumped on each setter call. -/

structure PricingViewState where
  query : String
  selectedDepts : List String
  deptsVer : Nat
  selectedCities : List String
  citiesVer : Nat
  page : Nat
  deriving DecidableEq

/-- The filter edits the pricing view's inputs can issue. -/
inductive FilterEdit where
  | setQuery (q : String)
  | toggleDept (d : String)
  | toggleCity (c : String)
  | clearAll
  deriving DecidableEq

/-- `toggleFilter`: remove the item if present (via `filter`), append it
otherwise. -/
def toggleFilter (prev : List String) (item : String) : List String :=
  if decide (item ∈ prev) then prev.filter (fun i => decide (i ≠ item))
  else prev ++ [item]

/-- Apply one filter edit to the component state (without the effects).
A `setQuery` with the current value is a no-op (React bails out of the
re-render on an `Object.is`-equal state). -/
def applyFilterEdit (s : PricingViewState) : FilterEdit → PricingViewState
  | .setQuery q => if q = s.query then s else { s with query := q }
  | .toggleDept d =>
      { s with selectedDepts := toggleFilter s.selectedDepts d, deptsVer := s.deptsVer + 1 }
  | .toggleCity c =>
      { s with selectedCities := toggleFilter s.selectedCities c, citiesVer := s.citiesVer + 1 }
  | .clearAll =>
      { s with selectedDepts := [], deptsVer := s.deptsVer + 1,
               selectedCities := [], citiesVer := s.citiesVer + 1 }

/-- The page-reset effect:
`useEffect(() => setPage(1), [query, selectedDepts, selectedCities])`,
run when a dependency differs from the previous render. -/
def pageResetEffect (old s : PricingViewState) : PricingViewState :=
  if s.query ≠ old.query ∨ s.deptsVer ≠ old.deptsVer ∨ s.citiesVer ≠ old.citiesVer
  then { s with page := 1 } else s

/-- One edit followed by the re-render's effects. -/
def applyEdit (s : PricingViewState) (e : FilterEdit) : PricingViewState :=
  pageResetEffect s (applyFilterEdit s e)

/-- An edit of a filter input, i.e. one that actually delivers a changed
value (a change event on the query box carries a string different from the
current one; toggles and clears always mutate). -/
def effectiveEdit (s : PricingViewState) : FilterEdit → Prop
  | .setQuery q => q ≠ s.query
  | _ => True

/-! ## TestExplorer fetch/debounce controller (Layout.tsx)

The fetch effect schedules `fetchTests` behind a 300 ms `setTimeout`; the
effect cleanup runs `clearTimeout` only — an already-issued fetch is not
aborted, and the response handler calls `setData(jsonData)` with no staleness
check.  States tag the debounce timer, the in-flight fetches and the store
contents with the filter version that produced them. -/

structure ExplorerFetchState where
  pending : Option Nat
  inflight : List Nat
  store : Option Nat
  deriving DecidableEq

/-- The initial state: nothing scheduled, nothing fetched. -/
def explorerInit : ExplorerFetchState :=
  { pending := none, inflight := [], store := none }

/-- Events of the debounced fetch effect. -/
inductive FetchEvent where
  | mutate (v : Nat)
  | fire
  | respond (v : Nat)
  deriving DecidableEq

/-- One event step, as the source behaves:
* `mutate v` — a filter dependency changes: the cleanup clears the pending
  timeout and the new effect schedules a new one (in-flight fetches are
  untouched — there is no `AbortController` here);
* `fire` — the pending timeout elapses and `fetchTests` issues the fetch;
* `respond v` — fetch `v`'s response arrives and `setData` stores it
  unconditionally. -/
def stepExplorer (s : ExplorerFetchState) : FetchEvent → ExplorerFetchState
  | .mutate v => { s with pending := some v }
  | .fire =>
      match s.pending with
      | some v => { s with pending := none, inflight := v :: s.inflight }
      | none => s
  | .respond v =>
      if v ∈ s.inflight then { s with inflight := s.inflight.erase v, store := some v }
      else s

/-- Run a sequence of events from a state. -/
def runExplorer (s : ExplorerFetchState) (es : List FetchEvent) : ExplorerFetchState :=
  es.foldl stepExplorer s

/-! ## Transport failure handling (fetchPricing / fetchTests error branches) -/

/-- Per-resource presentation state: the record store snapshot, the surfaced
error and the loading flag. -/
structure ResourceView (δ : Type) where
  store : δ
  error : Option String
  loading : Bool
  deriving DecidableEq

/-- The two fetched resources relevant to the cited code: the pricing view's
store (a record list) and the test explorer's envelope (tagged abstractly). -/
structure AppState where
  pricing : ResourceView (List PricingEntry)
  tests : ResourceView (Option Nat)
  deriving DecidableEq

/-- Outcome of a settled fetch: a payload or a transport failure (network
error or non-success status — `apiFetch` throws on `!response.ok`). -/
inductive FetchOutcome (δ : Type) where
  | ok (d : δ)
  | fail

/-- The pricing error message of the source. -/
def pricingErrMsg : String := "Failed to load enriched pricing data."

/-- The tests error message of the source. -/
def testsErrMsg : String := "Failed to fetch tests catalog. Please verify connection to Cloudflare Worker."

/-- Settlement of `fetchPricing`: on success, replace the store and clear the
error; on failure, leave the store as is and (unless the fetch was aborted)
surface the error; the `finally` clause clears `loading` unless aborted. -/
def settlePricingFetch (s : AppState) :
    FetchOutcome (List PricingEntry) → Bool → AppState
  | .ok d, _ => { s with pricing := { store := d, error := none, loading := false } }
  | .fail, aborted =>
      if aborted then s
      else { s with pricing := { s.pricing with error := some pricingErrMsg, loading := false } }

/-- Settlement of `fetchTests` (no abort signal exists there): on success
store the envelope and clear the error, on failure keep the data and surface
the error. -/
def settleTestsFetch (s : AppState) : FetchOutcome Nat → AppState
  | .ok d => { s with tests := { store := some d, error := none, loading := false } }
  | .fail => { s with tests := { s.tests with error := some testsErrMsg, loading := false } }

/-! ## Derived characterizations used in the statements -/

/-- The grouping keys of the department breakdown, in first-seen order. -/
def deptKeys (fd : List PricingEntry) : List String :=
  firstSeen (fd.map deptOf)

/-- The records of the filtered view falling in department `k`. -/
def deptGroup (fd : List PricingEntry) (k : String) : List PricingEntry :=
  fd.filter (fun d => decide (deptOf d = k))

/-- The department row the engine should produce for key `k`: the group's
record count and the rounded mean of its (parsed-or-0) prices. -/
def statFor (fd : List PricingEntry) (k : String) : DeptStat :=
  ⟨k, jround (((deptGroup fd k).map priceOf).sum / (((deptGroup fd k).length : ℚ))),
    (deptGroup fd k).length⟩

/-! ## Concrete sample data for witnesses -/

/-- A sample record with a numeric positive price. -/
def sampleCBC : PricingEntry :=
  ⟨"CBC01", "Complete Blood Count", "Hematology", "HYD", some 350, "24h"⟩

/-- A second sample record with a numeric positive price. -/
def sampleLFT : PricingEntry :=
  ⟨"LFT01", "Liver Function", "Biochemistry", "HYD", some 900, "48h"⟩

/-- A sample record whose `mrp` string does not parse (`parseFloat` = `NaN`). -/
def sampleBad : PricingEntry :=
  ⟨"BAD01", "Unpriced Panel", "Pathology", "DEL", none, ""⟩

/-- A sample application state. -/
def appState0 : AppState :=
  ⟨⟨[sampleCBC], none, false⟩, ⟨some 7, none, false⟩⟩

/-- A sample pricing view state sitting on page 3. -/
def viewState0 : PricingViewState :=
  ⟨"cbc", ["Hematology"], 4, [], 2, 3⟩

/-! ## Helper lemmas: strings, slices, folds -/

theorem includesAux_nil_needle (hay : List Char) : includesAux [] hay = true := by
  cases hay <;> simp [includesAux, List.isPrefixOf]

theorem strIncludes_empty_needle (hay : String) : strIncludes hay "" = true :=
  includesAux_nil_needle hay.data

theorem jsToLower_empty : jsToLower "" = "" := rfl

theorem jsTrim_eq_empty_iff (s : String) :
    jsTrim s = "" ↔ ∀ c ∈ s.data, c.isWhitespace := by
  unfold jsTrim
  constructor
  · intro h c hc
    have hnil : ((s.data.dropWhile Char.isWhitespace).reverse.dropWhile
        Char.isWhitespace).reverse = [] := congrArg String.data h
    rw [List.reverse_eq_nil_iff, List.dropWhile_eq_nil_iff] at hnil
    rcases (List.mem_append.1
        ((@List.takeWhile_append_dropWhile _ Char.isWhitespace s.data) ▸ hc)) with h1 | h2
    · exact List.mem_takeWhile_imp h1
    · exact hnil c (List.mem_reverse.2 h2)
  · intro h
    have : s.data.dropWhile Char.isWhitespace = [] := by
      rw [List.dropWhile_eq_nil_iff]; exact h
    simp [this]

theorem jsSlice_length (l : List α) (s e : Nat) :
    (jsSlice l s e).length = min (e - s) (l.length - s) := by
  simp [jsSlice]

theorem jsOrZero_num (q : ℚ) : jsOrZero (.num q) = .num q := by
  by_cases h : q = 0 <;> simp [jsOrZero, h]

theorem foldl_min_spec (x : ℚ) (xs : List ℚ) :
    (xs.foldl min x ≤ x ∧ ∀ p ∈ xs, xs.foldl min x ≤ p) ∧
      (xs.foldl min x = x ∨ xs.foldl min x ∈ xs) := by
  induction xs generalizing x with
  | nil => simp
  | cons y ys ih =>
    refine ⟨⟨le_trans (ih (min x y)).1.1 (min_le_left x y), ?_⟩, ?_⟩
    · intro p hp
      rcases List.mem_cons.1 hp with rfl | hp
      · exact le_trans (ih (min x p)).1.1 (min_le_right x p)
      · exact (ih (min x y)).1.2 p hp
    · rcases (ih (min x y)).2 with h | h
      · rcases min_choice x y with hxy | hxy
        · exact Or.inl (by rw [List.foldl_cons, h, hxy])
        · exact Or.inr (by rw [List.foldl_cons, h, hxy]; exact List.mem_cons_self y ys)
      · exact Or.inr (List.mem_cons_of_mem y h)

theorem foldl_max_spec (x : ℚ) (xs : List ℚ) :
    (x ≤ xs.foldl max x ∧ ∀ p ∈ xs, p ≤ xs.foldl max x) ∧
      (xs.foldl max x = x ∨ xs.foldl max x ∈ xs) := by
  induction xs generalizing x with
  | nil => simp
  | cons y ys ih =>
    refine ⟨⟨le_trans (le_max_left x y) (ih (max x y)).1.1, ?_⟩, ?_⟩
    · intro p hp
      rcases List.mem_cons.1 hp with rfl | hp
      · exact le_trans (le_max_right x p) (ih (max x p)).1.1
      · exact (ih (max x y)).1.2 p hp
    · rcases (ih (max x y)).2 with h | h
      · rcases max_choice x y with hxy | hxy
        · exact Or.inl (by rw [List.foldl_cons, h, hxy])
        · exact Or.inr (by rw [List.foldl_cons, h, hxy]; exact List.mem_cons_self y ys)
      · exact Or.inr (List.mem_cons_of_mem y h)

/-! ## Helper lemmas: stable insertion sort -/

theorem insertSorted_perm (before : α → α → Bool) (x : α) (l : List α) :
    (insertSorted before x l).Perm (x :: l) := by
  induction l with
  | nil => exact List.Perm.refl _
  | cons y ys ih =>
    unfold insertSorted
    by_cases h : before x y
    · simp [h]
    · simp only [h, if_false, Bool.false_eq_true]
      exact (ih.cons y).trans (List.Perm.swap x y ys)

theorem sortBy_perm (before : α → α → Bool) (l : List α) :
    (sortBy before l).Perm l := by
  induction l with
  | nil => exact List.Perm.refl _
  | cons x xs ih => exact (insertSorted_perm before x (sortBy before xs)).trans (ih.cons x)

theorem mem_insertSorted (before : α → α → Bool) (x a : α) (l : List α) :
    a ∈ insertSorted before x l ↔ a = x ∨ a ∈ l := by
  rw [(insertSorted_perm before x l).mem_iff]; simp

theorem mem_sortBy (before : α → α → Bool) (a : α) (l : List α) :
    a ∈ sortBy before l ↔ a ∈ l :=
  (sortBy_perm before l).mem_iff

theorem insertSorted_pairwise {R : α → α → Prop} (before : α → α → Bool) (x : α)
    (l : List α) (hl : l.Pairwise R)
    (hfalse : ∀ y ∈ l, before x y = false → R y x)
    (htrue : ∀ y ∈ l, before x y = true → R x y)
    (htrans : ∀ y ∈ l, ∀ z ∈ l, before x y = true → R y z → R x z) :
    (insertSorted before x l).Pairwise R := by
  induction l with
  | nil => simp [insertSorted]
  | cons y ys ih =>
    rcases List.pairwise_cons.1 hl with ⟨hy, hys⟩
    unfold insertSorted
    by_cases h : before x y
    · simp only [h, if_true]
      refine List.pairwise_cons.2 ⟨?_, hl⟩
      intro z hz
      rcases List.mem_cons.1 hz with rfl | hz
      · exact htrue z (List.mem_cons_self _ _) h
      · exact htrans y (List.mem_cons_self _ _) z (List.mem_cons_of_mem _ hz) h (hy z hz)
    · simp only [h, if_false, Bool.false_eq_true]
      refine List.pairwise_cons.2 ⟨?_, ?_⟩
      · intro z hz
        rcases (mem_insertSorted before x z ys).1 hz with rfl | hz
        · exact hfalse y (List.mem_cons_self _ _) (by simpa using h)
        · exact hy z hz
      · exact ih hys
          (fun z hz hb => hfalse z (List.mem_cons_of_mem _ hz) hb)
          (fun z hz hb => htrue z (List.mem_cons_of_mem _ hz) hb)
          (fun z hz w hw hb hr =>
            htrans z (List.mem_cons_of_mem _ hz) w (List.mem_cons_of_mem _ hw) hb hr)

theorem sortBy_pairwise {Q R : α → α → Prop} (before : α → α → Bool) (l : List α)
    (hQ : l.Pairwise Q)
    (c1 : ∀ x y, Q x y → before x y = false → R y x)
    (c2 : ∀ x y, Q x y → before x y = true → R x y)
    (c3 : ∀ x y z, Q x y → Q x z → before x y = true → R y z → R x z) :
    (sortBy before l).Pairwise R := by
  induction l with
  | nil => simp [sortBy]
  | cons x xs ih =>
    rcases List.pairwise_cons.1 hQ with ⟨hx, hxs⟩
    unfold sortBy
    refine insertSorted_pairwise before x (sortBy before xs) (ih hxs) ?_ ?_ ?_
    · intro y hy hb
      exact c1 x y (hx y ((mem_sortBy before y xs).1 hy)) hb
    · intro y hy hb
      exact c2 x y (hx y ((mem_sortBy before y xs).1 hy)) hb
    · intro y hy z hz hb hr
      exact c3 x y z (hx y ((mem_sortBy before y xs).1 hy))
        (hx z ((mem_sortBy before z xs).1 hz)) hb hr

/-! ## Helper lemmas: insertion-ordered accumulator maps -/

section AccumLemmas

variable {κ ν : Type} [DecidableEq κ]

theorem map_update_eq_self (f : ν → ν) (k : κ) (m : List (κ × ν))
    (h : ∀ p ∈ m, p.1 ≠ k) :
    m.map (fun p => if p.1 = k then (p.1, f p.2) else p) = m := by
  induction m with
  | nil => rfl
  | cons p rest ih =>
    simp only [List.map_cons]
    rw [if_neg (h p (List.mem_cons_self _ _)), ih (fun q hq => h q (List.mem_cons_of_mem _ hq))]

theorem upsert_of_not_mem (f : ν → ν) (v0 : ν) (k : κ) (m : List (κ × ν))
    (h : k ∉ m.map Prod.fst) : upsert f v0 k m = m ++ [(k, f v0)] := by
  induction m with
  | nil => rfl
  | cons p rest ih =>
    simp only [List.map_cons, List.mem_cons] at h
    push_neg at h
    unfold upsert
    rw [if_neg (fun hpk => h.1 hpk.symm), ih h.2]
    rfl

theorem upsert_of_mem (f : ν → ν) (v0 : ν) (k : κ) (m : List (κ × ν))
    (hn : (m.map Prod.fst).Nodup) (h : k ∈ m.map Prod.fst) :
    upsert f v0 k m = m.map (fun p => if p.1 = k then (p.1, f p.2) else p) := by
  induction m with
  | nil => simp at h
  | cons p rest ih =>
    simp only [List.map_cons, List.nodup_cons] at hn
    unfold upsert
    by_cases hpk : p.1 = k
    · subst hpk
      rw [if_pos rfl, List.map_cons, if_pos rfl,
        map_update_eq_self f p.1 rest
          (fun q hq hqk => hn.1 (hqk ▸ List.mem_map_of_mem Prod.fst hq))]
    · simp only [List.map_cons, List.mem_cons] at h
      rcases h with h | h
      · exact absurd h.symm hpk
      · rw [if_neg hpk, List.map_cons, if_neg hpk, ih hn.2 h]

theorem upsert_keys (f : ν → ν) (v0 : ν) (k : κ) (m : List (κ × ν)) :
    (upsert f v0 k m).map Prod.fst =
      if k ∈ m.map Prod.fst then m.map Prod.fst else m.map Prod.fst ++ [k] := by
  induction m with
  | nil => simp [upsert]
  | cons p rest ih =>
    unfold upsert
    by_cases hpk : p.1 = k
    · subst hpk
      simp
    · have hkp : ¬(k = p.1) := fun h => hpk h.symm
      rw [if_neg hpk, List.map_cons, List.map_cons, ih]
      by_cases hk : k ∈ rest.map Prod.fst
      · rw [if_pos hk, if_pos (by simp [List.mem_cons, hk])]
      · rw [if_neg hk, if_neg (by simp [List.mem_cons, hkp, hk])]
        rfl

theorem newKeys_congr (s₁ s₂ : List κ) (h : ∀ a, a ∈ s₁ ↔ a ∈ s₂) (ks : List κ) :
    newKeys s₁ ks = newKeys s₂ ks := by
  induction ks generalizing s₁ s₂ with
  | nil => rfl
  | cons k ks ih =>
    unfold newKeys
    by_cases hk : k ∈ s₁
    · rw [if_pos hk, if_pos ((h k).1 hk)]
      exact ih s₁ s₂ h
    · rw [if_neg hk, if_neg (fun hk2 => hk ((h k).2 hk2))]
      refine congrArg (k :: ·) (ih (k :: s₁) (k :: s₂) ?_)
      intro a
      simp [h a]

theorem not_mem_seen_of_mem_newKeys (seen : List κ) (ks : List κ) (k : κ)
    (h : k ∈ newKeys seen ks) : k ∉ seen := by
  induction ks generalizing seen with
  | nil => simp [newKeys] at h
  | cons a as ih =>
    unfold newKeys at h
    by_cases ha : a ∈ seen
    · rw [if_pos ha] at h
      exact ih seen h
    · rw [if_neg ha] at h
      rcases List.mem_cons.1 h with rfl | h
      · exact ha
      · intro hk
        exact ih (a :: seen) h (List.mem_cons_of_mem _ hk)

theorem mem_of_mem_newKeys (seen : List κ) (ks : List κ) (k : κ)
    (h : k ∈ newKeys seen ks) : k ∈ ks := by
  induction ks generalizing seen with
  | nil => simp [newKeys] at h
  | cons a as ih =>
    unfold newKeys at h
    by_cases ha : a ∈ seen
    · rw [if_pos ha] at h
      exact List.mem_cons_of_mem _ (ih seen h)
    · rw [if_neg ha] at h
      rcases List.mem_cons.1 h with rfl | h
      · exact List.mem_cons_self _ _
      · exact List.mem_cons_of_mem _ (ih (a :: seen) h)

theorem mem_newKeys_of_mem (seen : List κ) (ks : List κ) (k : κ)
    (hk : k ∈ ks) (hs : k ∉ seen) : k ∈ newKeys seen ks := by
  induction ks generalizing seen with
  | nil => simp at hk
  | cons a as ih =>
    unfold newKeys
    rcases List.mem_cons.1 hk with rfl | hk
    · rw [if_neg hs]
      exact List.mem_cons_self _ _
    · by_cases ha : a ∈ seen
      · rw [if_pos ha]
        exact ih seen hk hs
      · rw [if_neg ha]
        by_cases hka : k = a
        · exact hka ▸ List.mem_cons_self _ _
        · exact List.mem_cons_of_mem _
            (ih (a :: seen) hk (by simp [hka, hs]))

theorem newKeys_nodup (seen : List κ) (ks : List κ) : (newKeys seen ks).Nodup := by
  induction ks generalizing seen with
  | nil => simp [newKeys]
  | cons a as ih =>
    unfold newKeys
    by_cases ha : a ∈ seen
    · rw [if_pos ha]
      exact ih seen
    · rw [if_neg ha]
      refine List.nodup_cons.2 ⟨?_, ih (a :: seen)⟩
      intro hmem
      exact not_mem_seen_of_mem_newKeys _ _ _ hmem (List.mem_cons_self _ _)

theorem firstSeen_nodup (ks : List κ) : (firstSeen ks).Nodup :=
  newKeys_nodup [] ks

theorem mem_firstSeen (ks : List κ) (k : κ) : k ∈ firstSeen ks ↔ k ∈ ks :=
  ⟨mem_of_mem_newKeys [] ks k, fun h => mem_newKeys_of_mem [] ks k h (by simp)⟩

theorem groupFold_cons (valf : α → ν → ν) (v : ν) (x : α) (xs : List α) :
    groupFold valf v (x :: xs) = groupFold valf (valf x v) xs := rfl

theorem newKeys_cons_of_mem (seen : List κ) (k : κ) (ks : List κ) (h : k ∈ seen) :
    newKeys seen (k :: ks) = newKeys seen ks := by
  simp [newKeys, h]

theorem newKeys_cons_of_not_mem (seen : List κ) (k : κ) (ks : List κ) (h : k ∉ seen) :
    newKeys seen (k :: ks) = k :: newKeys (k :: seen) ks := by
  simp [newKeys, h]

theorem filter_key_cons_self (keyf : α → κ) (k : κ) (x : α) (l : List α)
    (h : keyf x = k) :
    (x :: l).filter (fun a => decide (keyf a = k))
      = x :: l.filter (fun a => decide (keyf a = k)) := by
  simp [List.filter_cons, h]

theorem filter_key_cons_ne (keyf : α → κ) (k : κ) (x : α) (l : List α)
    (h : keyf x ≠ k) :
    (x :: l).filter (fun a => decide (keyf a = k))
      = l.filter (fun a => decide (keyf a = k)) := by
  simp [List.filter_cons, h]

/-- The central characterization of the accumulator fold: folding `upsert`
over `l` starting from a map `m` with distinct keys updates each existing
entry with its group of `l`, then appends the unseen keys of `l` in
first-occurrence order, each with its group folded from `v0`. -/
theorem foldl_upsert_eq (keyf : α → κ) (valf : α → ν → ν) (v0 : ν) (l : List α) :
    ∀ m : List (κ × ν), (m.map Prod.fst).Nodup →
      l.foldl (fun m x => upsert (valf x) v0 (keyf x) m) m
        = m.map (fun p => (p.1, groupFold valf p.2 (l.filter fun x => decide (keyf x = p.1))))
          ++ (newKeys (m.map Prod.fst) (l.map keyf)).map
              (fun k => (k, groupFold valf v0 (l.filter fun x => decide (keyf x = k)))) := by
  induction l with
  | nil =>
    intro m _
    simp [newKeys, groupFold]
  | cons x l ih =>
    intro m hm
    by_cases hk : keyf x ∈ m.map Prod.fst
    · have hkeys : (upsert (valf x) v0 (keyf x) m).map Prod.fst = m.map Prod.fst := by
        rw [upsert_keys, if_pos hk]
      simp only [List.foldl_cons]
      rw [ih (upsert (valf x) v0 (keyf x) m) (by rw [hkeys]; exact hm), hkeys,
        upsert_of_mem (valf x) v0 (keyf x) m hm hk, List.map_map,
        List.map_cons, newKeys_cons_of_mem _ _ _ hk]
      congr 1
      · refine List.map_congr_left ?_
        intro p hp
        by_cases hpk : p.1 = keyf x
        · simp only [Function.comp_apply, if_pos hpk]
          rw [filter_key_cons_self keyf p.1 x l hpk.symm, groupFold_cons]
        · simp only [Function.comp_apply, if_neg hpk]
          rw [filter_key_cons_ne keyf p.1 x l (fun h => hpk h.symm)]
      · refine List.map_congr_left ?_
        intro k hknew
        have hkne : keyf x ≠ k :=
          fun h => (not_mem_seen_of_mem_newKeys _ _ _ hknew) (h ▸ hk)
        rw [filter_key_cons_ne keyf k x l hkne]
    · have hnodup' : ((m ++ [(keyf x, valf x v0)]).map Prod.fst).Nodup := by
        rw [List.map_append]
        simp only [List.map_cons, List.map_nil]
        refine List.Nodup.append hm (List.nodup_singleton _) ?_
        intro a ha hb
        simp only [List.mem_singleton] at hb
        exact hk (hb ▸ ha)
      simp only [List.foldl_cons]
      rw [upsert_of_not_mem (valf x) v0 (keyf x) m hk, ih _ hnodup',
        List.map_append, List.map_append]
      simp only [List.map_cons, List.map_nil]
      rw [newKeys_congr (m.map Prod.fst ++ [keyf x]) (keyf x :: m.map Prod.fst)
        (by intro a; simp [or_comm]) (l.map keyf),
        newKeys_cons_of_not_mem _ _ _ hk, List.map_cons,
        List.append_assoc, List.singleton_append]
      congr 1
      · refine List.map_congr_left ?_
        intro p hp
        have hpk : keyf x ≠ p.1 := fun h => hk (h ▸ List.mem_map_of_mem Prod.fst hp)
        rw [filter_key_cons_ne keyf p.1 x l hpk]
      · congr 1
        · rw [filter_key_cons_self keyf (keyf x) x l rfl, groupFold_cons]
        · refine List.map_congr_left ?_
          intro k hknew
          have hkne : keyf x ≠ k :=
            fun h => (not_mem_seen_of_mem_newKeys _ _ _ hknew) (h ▸ List.mem_cons_self _ _)
          rw [filter_key_cons_ne keyf k x l hkne]

/-- `accum` computes, for each key in first-occurrence order, the fold of the
update function over that key's group. -/
theorem accum_eq (keyf : α → κ) (valf : α → ν → ν) (v0 : ν) (l : List α) :
    accum keyf valf v0 l
      = (firstSeen (l.map keyf)).map
          (fun k => (k, groupFold valf v0 (l.filter fun x => decide (keyf x = k)))) := by
  unfold accum firstSeen
  rw [foldl_upsert_eq keyf valf v0 l [] (by simp)]
  simp

end AccumLemmas

/-! ## Helper lemmas: specializations for the two accumulators -/

theorem groupFold_sum_count (t : ℚ) (c : Nat) (xs : List PricingEntry) :
    groupFold (fun d (tc : ℚ × Nat) => (tc.1 + priceOf d, tc.2 + 1)) (t, c) xs
      = (t + (xs.map priceOf).sum, c + xs.length) := by
  induction xs generalizing t c with
  | nil => simp [groupFold]
  | cons y ys ih =>
    rw [groupFold_cons, ih]
    simp only [List.map_cons, List.sum_cons, List.length_cons]
    congr 1
    · ring
    · omega

theorem groupFold_count (n : Nat) (xs : List α) :
    groupFold (fun _ (n : Nat) => n + 1) n xs = n + xs.length := by
  induction xs generalizing n with
  | nil => simp [groupFold]
  | cons y ys ih =>
    rw [groupFold_cons, ih, List.length_cons]
    omega

theorem upsert_count_sum (k : ℤ) (m : List (ℤ × Nat)) :
    ((upsert (fun n => n + 1) 0 k m).map Prod.snd).sum = (m.map Prod.snd).sum + 1 := by
  induction m with
  | nil => simp [upsert]
  | cons p rest ih =>
    unfold upsert
    by_cases hpk : p.1 = k
    · rw [if_pos hpk]
      simp only [List.map_cons, List.sum_cons]
      omega
    · rw [if_neg hpk]
      simp only [List.map_cons, List.sum_cons, ih]
      omega

theorem foldl_bucket_count_sum (ps : List ℚ) :
    ∀ m : List (ℤ × Nat),
      (((ps.foldl (fun m p => upsert (fun n => n + 1) 0 (bucketKey p) m) m)).map
          Prod.snd).sum
        = (m.map Prod.snd).sum + ps.length := by
  induction ps with
  | nil => intro m; simp
  | cons p ps ih =>
    intro m
    rw [List.foldl_cons, ih, upsert_count_sum, List.length_cons]
    omega

theorem bucketMap_count_sum (ps : List ℚ) :
    ((bucketMap ps).map Prod.snd).sum = ps.length := by
  unfold bucketMap accum
  rw [foldl_bucket_count_sum ps []]
  simp

theorem pairwise_indexOf_lt (ks : List String) (h : ks.Nodup) :
    ks.Pairwise (fun a b => ks.indexOf a < ks.indexOf b) := by
  induction ks with
  | nil => exact List.Pairwise.nil
  | cons k rest ih =>
    rcases List.nodup_cons.1 h with ⟨hk, hrest⟩
    refine List.pairwise_cons.2 ⟨?_, ?_⟩
    · intro b hb
      have hbk : b ≠ k := fun hbk => hk (hbk ▸ hb)
      rw [List.indexOf_cons_self, List.indexOf_cons_ne _ (Ne.symm hbk)]
      omega
    · refine (ih hrest).imp_of_mem ?_
      intro a b ha hb hab
      have hak : a ≠ k := fun hak => hk (hak ▸ ha)
      have hbk : b ≠ k := fun hbk => hk (hbk ▸ hb)
      rw [List.indexOf_cons_ne _ (Ne.symm hak), List.indexOf_cons_ne _ (Ne.symm hbk)]
      omega

theorem includedPrices_length (fd : List PricingEntry) :
    (includedPrices fd).length
      = (fd.filter (fun d => decide (0 < priceOf d))).length := by
  unfold includedPrices
  induction fd with
  | nil => rfl
  | cons d fd ih =>
    rw [List.map_cons, List.filter_cons, List.filter_cons]
    by_cases h : (0 : ℚ) < priceOf d <;> simp [h, ih]

theorem jsRound_num (q : ℚ) : jsRound (JNum.num q) = JNum.num (jround q) := rfl

theorem jsMin_cons (x : ℚ) (xs : List ℚ) :
    jsMin (x :: xs) = JNum.num (xs.foldl min x) := rfl

theorem jsMax_cons (x : ℚ) (xs : List ℚ) :
    jsMax (x :: xs) = JNum.num (xs.foldl max x) := rfl

/-! ## Claim theorems -/

attribute [local semireducible] Rat.mul Rat.add Rat.inv

/-- C3 (predicate composition): a record is in the filtered view iff it is in
the store, the text query matches case-insensitively against name or code
(an empty query matches every record), and for each categorical dimension
(departments, cities) whose selected set is non-empty the record's value is a
member of that set; an empty selected set imposes no constraint. -/
theorem filteredData_mem (data : List PricingEntry) (query : String)
    (selectedDepts selectedCities : List String) (e : PricingEntry) :
    e ∈ filteredData data query selectedDepts selectedCities ↔
      e ∈ data ∧
      (query = "" ∨
        strIncludes (jsToLower e.test_name) (jsToLower query) = true ∨
        strIncludes (jsToLower e.test_code) (jsToLower query) = true) ∧
      (selectedDepts = [] ∨ e.department ∈ selectedDepts) ∧
      (selectedCities = [] ∨ e.city ∈ selectedCities) := by
  unfold filteredData
  rw [List.mem_filter]
  unfold matchesFilters
  simp only [Bool.and_eq_true, Bool.or_eq_true, decide_eq_true_eq,
    List.isEmpty_iff]
  constructor
  · rintro ⟨hmem, ⟨⟨htext, hdept⟩, hcity⟩⟩
    exact ⟨hmem, Or.inr htext, hdept, hcity⟩
  · rintro ⟨hmem, htext, hdept, hcity⟩
    refine ⟨hmem, ⟨⟨?_, hdept⟩, hcity⟩⟩
    rcases htext with rfl | h | h
    · rw [jsToLower_empty]
      exact Or.inl (strIncludes_empty_needle _)
    · exact Or.inl h
    · exact Or.inr h

/-- C4 (pagination bound): for a page number `≥ 1`, `paginatedResults` is the
slice `view[(page-1)*15 : page*15]` and its length is
`min 15 (max 0 (N - (page-1)*15))`; the slice is total (clamping, never
throwing). -/
theorem paginatedResults_spec (view : List α) (page : Nat) (h : 1 ≤ page) :
    paginatedResults view page = (view.drop ((page - 1) * 15)).take 15 ∧
    ((paginatedResults view page).length : ℤ)
      = min 15 (max 0 ((view.length : ℤ) - ((page : ℤ) - 1) * 15)) := by
  have h15 : page * 15 - (page - 1) * 15 = 15 := by omega
  have hslice : paginatedResults view page = (view.drop ((page - 1) * 15)).take 15 := by
    unfold paginatedResults jsSlice ITEMS_PER_PAGE
    rw [h15]
  refine ⟨hslice, ?_⟩
  have hlen : (paginatedResults view page).length
      = min 15 (view.length - (page - 1) * 15) := by
    rw [hslice]
    simp
  rw [hlen]
  omega

/-- Witness for C4 at a concrete five-element view and page 2. -/
theorem paginatedResults_spec_witness :
    1 ≤ 2 ∧
    (paginatedResults [10, 20, 30, 40, 50] 2
        = (([10, 20, 30, 40, 50] : List Nat).drop ((2 - 1) * 15)).take 15 ∧
      ((paginatedResults [10, 20, 30, 40, 50] 2).length : ℤ)
        = min 15 (max 0 ((([10, 20, 30, 40, 50] : List Nat).length : ℤ)
            - ((2 : ℤ) - 1) * 15))) :=
  ⟨by decide, paginatedResults_spec [10, 20, 30, 40, 50] 2 (by decide)⟩

/-- C8 (comparison toggle involution): on a duplicate-free selection,
`toggle x` adds `x` when absent and removes it when present, and toggling
twice from an `x`-absent state restores the selection exactly. -/
theorem toggleSelection_spec (sel : List String) (x : String) (h : sel.Nodup) :
    (x ∉ sel → x ∈ toggleSelection sel x ∧
        toggleSelection (toggleSelection sel x) x = sel) ∧
    (x ∈ sel → x ∉ toggleSelection sel x) := by
  constructor
  · intro hx
    have h1 : toggleSelection sel x = sel ++ [x] := by
      simp [toggleSelection, hx]
    rw [h1]
    constructor
    · simp
    · have h2 : toggleSelection (sel ++ [x]) x = (sel ++ [x]).erase x := by
        simp [toggleSelection]
      rw [h2, List.erase_append_right _ hx, List.erase_cons_head, List.append_nil]
  · intro hx
    have h1 : toggleSelection sel x = sel.erase x := by
      simp [toggleSelection, hx]
    rw [h1]
    intro hmem
    exact ((List.Nodup.mem_erase_iff h).1 hmem).1 rfl

/-- Witness for C8 on the selection `["A"]` and code `"B"`. -/
theorem toggleSelection_spec_witness :
    (["A"] : List String).Nodup ∧
    (("B" ∉ (["A"] : List String) → "B" ∈ toggleSelection ["A"] "B" ∧
        toggleSelection (toggleSelection ["A"] "B") "B" = ["A"]) ∧
      ("B" ∈ (["A"] : List String) → "B" ∉ toggleSelection ["A"] "B")) :=
  ⟨by decide, toggleSelection_spec ["A"] "B" (by decide)⟩

/-- C9 (transport failure atomicity): a failed fetch leaves the resource's
store unchanged, surfaces the error message for that resource only (unless
the fetch was aborted on unmount), and does not touch the other resource's
view. -/
theorem fetchFailure_atomic (s : AppState) (aborted : Bool) :
    (settlePricingFetch s .fail aborted).pricing.store = s.pricing.store ∧
    (aborted = false →
      (settlePricingFetch s .fail aborted).pricing.error = some pricingErrMsg) ∧
    (settlePricingFetch s .fail aborted).tests = s.tests ∧
    (settleTestsFetch s .fail).tests.store = s.tests.store ∧
    (settleTestsFetch s .fail).tests.error = some testsErrMsg ∧
    (settleTestsFetch s .fail).pricing = s.pricing := by
  cases aborted <;> simp [settlePricingFetch, settleTestsFetch]

/-- Witness for C9 at a concrete state with a non-aborted failure. -/
theorem fetchFailure_atomic_witness :
    (settlePricingFetch appState0 .fail false).pricing.store
        = appState0.pricing.store ∧
    (settlePricingFetch appState0 .fail false).pricing.error = some pricingErrMsg :=
  ⟨(fetchFailure_atomic appState0 false).1,
    (fetchFailure_atomic appState0 false).2.1 rfl⟩

/-- C10 (comparison typeahead): a search string that is empty or all
whitespace yields no candidates, even though the empty needle substring-matches
every string; a search string with a non-whitespace character yields the first
8 store-order records matching name or code and not already selected; the
candidate list never exceeds 8 and never contains a selected code. -/
theorem comparisonResults_spec (data : List PricingEntry) (search : String)
    (selected : List String) :
    ((∀ c ∈ search.data, c.isWhitespace) →
        comparisonResults data search selected = []) ∧
    ((∃ c ∈ search.data, ¬c.isWhitespace) →
        comparisonResults data search selected
          = (data.filter (matchesComparison search selected)).take 8) ∧
    (∀ hay : String, strIncludes hay (jsToLower "") = true) ∧
    (comparisonResults data search selected).length ≤ 8 ∧
    (∀ d ∈ comparisonResults data search selected, d.test_code ∉ selected) := by
  refine ⟨?_, ?_, ?_, ?_, ?_⟩
  · intro hws
    unfold comparisonResults
    rw [if_pos ((jsTrim_eq_empty_iff search).2 hws)]
  · rintro ⟨c, hc, hcws⟩
    unfold comparisonResults
    rw [if_neg (fun htrim => hcws ((jsTrim_eq_empty_iff search).1 htrim c hc))]
  · intro hay
    rw [jsToLower_empty]
    exact strIncludes_empty_needle hay
  · unfold comparisonResults
    by_cases htrim : jsTrim search = ""
    · rw [if_pos htrim]
      simp
    · rw [if_neg htrim]
      exact List.length_take_le 8 _
  · intro d hd
    unfold comparisonResults at hd
    by_cases htrim : jsTrim search = ""
    · rw [if_pos htrim] at hd
      simp at hd
    · rw [if_neg htrim] at hd
      have hd2 := List.mem_filter.1 (List.take_subset 8 _ hd)
      have hmc := hd2.2
      unfold matchesComparison at hmc
      simp only [Bool.and_eq_true, Bool.not_eq_true', decide_eq_false_iff_not] at hmc
      exact hmc.2

/-- Witness for C10: an all-whitespace search yields no candidates. -/
theorem comparisonResults_spec_witness :
    comparisonResults [sampleCBC, sampleLFT] "  " ["CBC01"] = [] :=
  (comparisonResults_spec [sampleCBC, sampleLFT] "  " ["CBC01"]).1 (by decide)

/-- C7 (page reset): after every edit of a filter input that delivers a
changed value (a query change event with a new string; department/city
toggles and clears always allocate fresh selections, so they always count),
the page-reset effect runs and the page number is 1; and at page 1 a
non-empty filtered view never shows an empty page. -/
theorem pageReset_spec (s : PricingViewState) (e : FilterEdit)
    (h : effectiveEdit s e) :
    (applyEdit s e).page = 1 ∧
    (∀ view : List PricingEntry, view ≠ [] →
        paginatedResults view (applyEdit s e).page ≠ []) := by
  have hpage : (applyEdit s e).page = 1 := by
    cases e with
    | setQuery q =>
      have hq : q ≠ s.query := h
      simp [applyEdit, applyFilterEdit, pageResetEffect, hq]
    | toggleDept d =>
      simp [applyEdit, applyFilterEdit, pageResetEffect]
    | toggleCity c =>
      simp [applyEdit, applyFilterEdit, pageResetEffect]
    | clearAll =>
      simp [applyEdit, applyFilterEdit, pageResetEffect]
  refine ⟨hpage, ?_⟩
  intro view hv
  rw [hpage]
  cases view with
  | nil => exact absurd rfl hv
  | cons a l =>
    simp [paginatedResults, jsSlice, ITEMS_PER_PAGE]

/-- Witness for C7: toggling a department on a state sitting at page 3. -/
theorem pageReset_spec_witness :
    effectiveEdit viewState0 (.toggleDept "Biochemistry") ∧
    ((applyEdit viewState0 (.toggleDept "Biochemistry")).page = 1 ∧
      (∀ view : List PricingEntry, view ≠ [] →
        paginatedResults view (applyEdit viewState0 (.toggleDept "Biochemistry")).page ≠ [])) :=
  ⟨trivial, pageReset_spec viewState0 (.toggleDept "Biochemistry") trivial⟩

/-- C2 (cancellation race, code bug): in the TestExplorer fetch effect the
cleanup only clears the debounce timer and never aborts an issued fetch, and
the response handler stores its payload unconditionally.  On the trace where
fetch A (filter version 1) is issued, a mutation then issues fetch B (version
2), B's response arrives and then A's late response arrives, the store ends
up reflecting A — not only B as the claim requires. -/
theorem explorer_race_stale_overwrite :
    (runExplorer explorerInit
        [.mutate 1, .fire, .mutate 2, .fire, .respond 2, .respond 1]).store
      = some 1 ∧
    (runExplorer explorerInit
        [.mutate 1, .fire, .mutate 2, .fire, .respond 2, .respond 1]).store
      ≠ some 2 := by
  constructor
  · decide
  · decide

/-- C1 counterexample: on a non-empty filtered view whose only record has a
non-numeric price, the count of included values is 0, and the engine reports
`minPrice = Infinity` and `maxPrice = -Infinity` — not 0 as claimed
(`Math.min()` of no arguments is `Infinity`, which is truthy, so the `|| 0`
fallback does not replace it); only `avgPrice` actually falls back to 0. -/
theorem analytics_empty_count_infinite :
    includedPrices [sampleBad] = [] ∧
    (analytics [sampleBad]).map AnalyticsMetrics.minPrice = some JNum.posInf ∧
    (analytics [sampleBad]).map AnalyticsMetrics.maxPrice = some JNum.negInf ∧
    (analytics [sampleBad]).map AnalyticsMetrics.avgPrice = some (JNum.num 0) ∧
    (analytics [sampleBad]).map AnalyticsMetrics.minPrice ≠ some (JNum.num 0) := by
  refine ⟨?_, ?_, ?_, ?_, ?_⟩ <;> decide

/-- C1 (amended): on a non-empty filtered view the numeric summary parses each
record's price, excludes non-numeric and non-positive values from the summary
(while the filter predicate never looks at the price, so such records stay in
the view), and `avg = round(sum/count)` over the included values; when the
count of included values is 0, `avg` is 0 but `min` is `Infinity` and `max`
is `-Infinity` (the `|| 0` fallback only replaces the falsy `NaN`/`0`, not
the infinities). -/
theorem analytics_spec (fd : List PricingEntry) (h : fd ≠ []) :
    ∃ m, analytics fd = some m ∧
      (∀ (q : String) (sd sc : List String) (e : PricingEntry) (v : Option ℚ),
        matchesFilters q sd sc { e with mrp := v } = matchesFilters q sd sc e) ∧
      includedPrices fd = (fd.map priceOf).filter (fun p => decide (0 < p)) ∧
      (includedPrices fd = [] →
        m.avgPrice = JNum.num 0 ∧ m.minPrice = JNum.posInf ∧
          m.maxPrice = JNum.negInf) ∧
      (includedPrices fd ≠ [] →
        m.avgPrice = JNum.num (jround ((includedPrices fd).sum
            / ((includedPrices fd).length : ℚ))) ∧
        (∃ qmin, m.minPrice = JNum.num qmin ∧ qmin ∈ includedPrices fd ∧
            ∀ p ∈ includedPrices fd, qmin ≤ p) ∧
        (∃ qmax, m.maxPrice = JNum.num qmax ∧ qmax ∈ includedPrices fd ∧
            ∀ p ∈ includedPrices fd, p ≤ qmax)) := by
  have hlen : ¬fd.length = 0 := by
    simpa [List.length_eq_zero] using h
  have hA : analytics fd = some
      { avgPrice := jsOrZero (jsRound (jdiv (includedPrices fd).sum
          ((includedPrices fd).length : ℚ)))
        minPrice := jsOrZero (jsMin (includedPrices fd))
        maxPrice := jsOrZero (jsMax (includedPrices fd))
        deptStats := deptStats fd
        distribution := distribution (includedPrices fd) } := by
    unfold analytics
    rw [if_neg hlen]
  refine ⟨_, hA, ?_, rfl, ?_, ?_⟩
  · intro q sd sc e v
    rfl
  · intro hemp
    refine ⟨?_, ?_, ?_⟩ <;>
      simp [hemp, jdiv, jsRound, jsOrZero, jsMin, jsMax]
  · intro hne
    cases hp : includedPrices fd with
    | nil => exact absurd hp hne
    | cons x xs =>
      have hlen2 : (((x :: xs).length : ℕ) : ℚ) ≠ 0 :=
        Nat.cast_ne_zero.2 (by simp)
      have hdiv : jdiv (x :: xs).sum (((x :: xs).length : ℕ) : ℚ)
          = JNum.num ((x :: xs).sum / (((x :: xs).length : ℕ) : ℚ)) := by
        unfold jdiv
        rw [if_neg hlen2]
      refine ⟨?_, ?_, ?_⟩
      · show jsOrZero (jsRound (jdiv (x :: xs).sum (((x :: xs).length : ℕ) : ℚ)))
          = _
        rw [hdiv, jsRound_num, jsOrZero_num]
      · refine ⟨xs.foldl min x, ?_, ?_, ?_⟩
        · show jsOrZero (jsMin (x :: xs)) = _
          rw [jsMin_cons, jsOrZero_num]
        · rcases (foldl_min_spec x xs).2 with hm | hm
          · rw [hm]
            exact List.mem_cons_self _ _
          · exact List.mem_cons_of_mem _ hm
        · intro p hp2
          rcases List.mem_cons.1 hp2 with rfl | hp2
          · exact (foldl_min_spec _ xs).1.1
          · exact (foldl_min_spec x xs).1.2 p hp2
      · refine ⟨xs.foldl max x, ?_, ?_, ?_⟩
        · show jsOrZero (jsMax (x :: xs)) = _
          rw [jsMax_cons, jsOrZero_num]
        · rcases (foldl_max_spec x xs).2 with hm | hm
          · rw [hm]
            exact List.mem_cons_self _ _
          · exact List.mem_cons_of_mem _ hm
        · intro p hp2
          rcases List.mem_cons.1 hp2 with rfl | hp2
          · exact (foldl_max_spec _ xs).1.1
          · exact (foldl_max_spec x xs).1.2 p hp2

/-- Witness for C1's amended theorem on a two-record view with prices 350
and 900. -/
theorem analytics_spec_witness :
    [sampleCBC, sampleLFT] ≠ ([] : List PricingEntry) ∧
    (∃ m, analytics [sampleCBC, sampleLFT] = some m ∧
      (∀ (q : String) (sd sc : List String) (e : PricingEntry) (v : Option ℚ),
        matchesFilters q sd sc { e with mrp := v } = matchesFilters q sd sc e) ∧
      includedPrices [sampleCBC, sampleLFT]
        = (([sampleCBC, sampleLFT].map priceOf).filter (fun p => decide (0 < p))) ∧
      (includedPrices [sampleCBC, sampleLFT] = [] →
        m.avgPrice = JNum.num 0 ∧ m.minPrice = JNum.posInf ∧
          m.maxPrice = JNum.negInf) ∧
      (includedPrices [sampleCBC, sampleLFT] ≠ [] →
        m.avgPrice = JNum.num (jround ((includedPrices [sampleCBC, sampleLFT]).sum
            / ((includedPrices [sampleCBC, sampleLFT]).length : ℚ))) ∧
        (∃ qmin, m.minPrice = JNum.num qmin ∧
            qmin ∈ includedPrices [sampleCBC, sampleLFT] ∧
            ∀ p ∈ includedPrices [sampleCBC, sampleLFT], qmin ≤ p) ∧
        (∃ qmax, m.maxPrice = JNum.num qmax ∧
            qmax ∈ includedPrices [sampleCBC, sampleLFT] ∧
            ∀ p ∈ includedPrices [sampleCBC, sampleLFT], p ≤ qmax))) :=
  ⟨by decide, analytics_spec [sampleCBC, sampleLFT] (by decide)⟩

/-- The bucket accumulator holds, per first-seen bucket key, the number of
included prices whose key it is. -/
theorem bucketMap_eq (ps : List ℚ) :
    bucketMap ps = (firstSeen (ps.map bucketKey)).map
      (fun k => (k, (ps.filter (fun p => decide (bucketKey p = k))).length)) := by
  unfold bucketMap
  rw [accum_eq]
  refine List.map_congr_left ?_
  intro k _
  rw [groupFold_count]
  simp

/-- C6 (histogram): every emitted bucket's key is the bucket key
`⌊p/500⌋*500` of some included price, its count is the number of included
prices in that bucket (in particular non-zero: only non-empty buckets are
emitted), buckets come in strictly ascending key order, and the counts sum to
the number of numeric-parseable, positive-price records of the filtered
view. -/
theorem distribution_spec (fd : List PricingEntry) :
    (∀ b ∈ distribution (includedPrices fd),
        b.1 ∈ (includedPrices fd).map bucketKey ∧
        b.2 = ((includedPrices fd).filter
            (fun p => decide (bucketKey p = b.1))).length ∧
        b.2 ≠ 0) ∧
    (distribution (includedPrices fd)).Pairwise (fun a b => a.1 < b.1) ∧
    ((distribution (includedPrices fd)).map Prod.snd).sum
        = (includedPrices fd).length ∧
    (includedPrices fd).length
        = (fd.filter (fun d => decide (0 < priceOf d))).length := by
  refine ⟨?_, ?_, ?_, includedPrices_length fd⟩
  · intro b hb
    have hb2 : b ∈ bucketMap (includedPrices fd) := (mem_sortBy _ b _).1 hb
    rw [bucketMap_eq] at hb2
    rcases List.mem_map.1 hb2 with ⟨k, hk, rfl⟩
    have hkmem : k ∈ (includedPrices fd).map bucketKey := (mem_firstSeen _ _).1 hk
    refine ⟨hkmem, rfl, ?_⟩
    rcases List.mem_map.1 hkmem with ⟨p, hp, hpk⟩
    have hpf : p ∈ (includedPrices fd).filter (fun p => decide (bucketKey p = k)) :=
      List.mem_filter.2 ⟨hp, by simp [hpk]⟩
    intro h0
    rw [List.length_eq_zero] at h0
    rw [h0] at hpf
    exact absurd hpf (List.not_mem_nil p)
  · unfold distribution
    refine @sortBy_pairwise (ℤ × ℕ) (fun a b => a.1 ≠ b.1) (fun a b => a.1 < b.1)
      (fun a b => decide (a.1 ≤ b.1)) (bucketMap (includedPrices fd)) ?_ ?_ ?_ ?_
    · rw [bucketMap_eq]
      exact List.pairwise_map.2 (firstSeen_nodup ((includedPrices fd).map bucketKey))
    · intro x y _ hb
      exact lt_of_not_le (of_decide_eq_false hb)
    · intro x y hQ hb
      exact lt_of_le_of_ne (of_decide_eq_true hb) hQ
    · intro x y z _ _ hb hR
      exact lt_of_le_of_lt (of_decide_eq_true hb) hR
  · have hperm : ((distribution (includedPrices fd)).map Prod.snd).Perm
        ((bucketMap (includedPrices fd)).map Prod.snd) :=
      (sortBy_perm _ _).map Prod.snd
    rw [hperm.sum_eq, bucketMap_count_sum]

/-- Witness for C6 at the two-record view: the bucket `(0, 1)` is emitted
with the claimed properties. -/
theorem distribution_spec_witness :
    ((0 : ℤ), (1 : ℕ)) ∈ distribution (includedPrices [sampleCBC, sampleLFT]) ∧
    (((0 : ℤ), (1 : ℕ)).1 ∈ (includedPrices [sampleCBC, sampleLFT]).map bucketKey ∧
      ((0 : ℤ), (1 : ℕ)).2 = ((includedPrices [sampleCBC, sampleLFT]).filter
          (fun p => decide (bucketKey p = ((0 : ℤ), (1 : ℕ)).1))).length ∧
      ((0 : ℤ), (1 : ℕ)).2 ≠ 0) :=
  ⟨by decide, (distribution_spec [sampleCBC, sampleLFT]).1 ((0 : ℤ), (1 : ℕ)) (by decide)⟩

/-- The department accumulator holds, per first-seen department key, the
price sum and record count of that department's group. -/
theorem deptMap_eq (fd : List PricingEntry) :
    deptMap fd = (deptKeys fd).map
      (fun k => (k, (((deptGroup fd k).map priceOf).sum, (deptGroup fd k).length))) := by
  unfold deptMap deptKeys deptGroup
  rw [accum_eq]
  refine List.map_congr_left ?_
  intro k _
  rw [groupFold_sum_count]
  simp

/-- C5 (group statistics): `deptStats` is the stable descending-count sort of
one row per department (in first-seen key order) truncated to the top 15;
the sort is a permutation of the full row list; the result length is
`min 15 (number of distinct departments)`; every emitted row carries its
group's record count and the rounded mean of its group's parsed prices; and
rows are ordered by descending count with ties broken by the first-seen order
of the grouping keys. -/
theorem deptStats_spec (fd : List PricingEntry) :
    deptStats fd = (sortBy byCountDesc ((deptKeys fd).map (statFor fd))).take 15 ∧
    (sortBy byCountDesc ((deptKeys fd).map (statFor fd))).Perm
      ((deptKeys fd).map (statFor fd)) ∧
    (deptStats fd).length = min 15 (deptKeys fd).length ∧
    (∀ s ∈ deptStats fd,
        s.name ∈ fd.map deptOf ∧
        s.count = (deptGroup fd s.name).length ∧
        s.avg = jround (((deptGroup fd s.name).map priceOf).sum
            / ((deptGroup fd s.name).length : ℚ))) ∧
    (deptStats fd).Pairwise (fun a b =>
        b.count < a.count ∨ (a.count = b.count ∧
          (deptKeys fd).indexOf a.name < (deptKeys fd).indexOf b.name)) := by
  have h1 : deptStats fd
      = (sortBy byCountDesc ((deptKeys fd).map (statFor fd))).take 15 := by
    unfold deptStats
    rw [deptMap_eq, List.map_map]
    rfl
  refine ⟨h1, sortBy_perm _ _, ?_, ?_, ?_⟩
  · rw [h1, List.length_take, (sortBy_perm byCountDesc _).length_eq, List.length_map]
  · intro s hs
    rw [h1] at hs
    have hs2 : s ∈ sortBy byCountDesc ((deptKeys fd).map (statFor fd)) :=
      List.take_subset _ _ hs
    rcases List.mem_map.1 ((mem_sortBy _ s _).1 hs2) with ⟨k, hk, rfl⟩
    exact ⟨(mem_firstSeen _ _).1 hk, rfl, rfl⟩
  · rw [h1]
    refine List.Pairwise.sublist (List.take_sublist _ _) ?_
    refine @sortBy_pairwise DeptStat
      (fun a b => (deptKeys fd).indexOf a.name < (deptKeys fd).indexOf b.name)
      (fun a b => b.count < a.count ∨ (a.count = b.count ∧
        (deptKeys fd).indexOf a.name < (deptKeys fd).indexOf b.name))
      byCountDesc ((deptKeys fd).map (statFor fd)) ?_ ?_ ?_ ?_
    · refine List.pairwise_map.2 ?_
      exact pairwise_indexOf_lt (deptKeys fd) (firstSeen_nodup _)
    · intro x y _ hb
      have hnle : ¬y.count ≤ x.count := of_decide_eq_false hb
      exact Or.inl (lt_of_not_le hnle)
    · intro x y hQ hb
      have hle : y.count ≤ x.count := of_decide_eq_true hb
      rcases lt_or_eq_of_le hle with hlt | heq
      · exact Or.inl hlt
      · exact Or.inr ⟨heq.symm, hQ⟩
    · intro x y z _ hQxz hb hR
      have hle : y.count ≤ x.count := of_decide_eq_true hb
      rcases hR with hlt | ⟨heq, _⟩
      · exact Or.inl (lt_of_lt_of_le hlt hle)
      · rcases lt_or_eq_of_le (heq ▸ hle : z.count ≤ x.count) with h2 | h2
        · exact Or.inl h2
        · exact Or.inr ⟨h2.symm, hQxz⟩

/-- Witness for C5 at the two-record view: the Hematology row is emitted with
count 1 and average 350. -/
theorem deptStats_spec_witness :
    (⟨"Hematology", 350, 1⟩ : DeptStat) ∈ deptStats [sampleCBC, sampleLFT] ∧
    ((⟨"Hematology", 350, 1⟩ : DeptStat).name ∈ [sampleCBC, sampleLFT].map deptOf ∧
      (⟨"Hematology", 350, 1⟩ : DeptStat).count
        = (deptGroup [sampleCBC, sampleLFT]
            (⟨"Hematology", 350, 1⟩ : DeptStat).name).length ∧
      (⟨"Hematology", 350, 1⟩ : DeptStat).avg
        = jround (((deptGroup [sampleCBC, sampleLFT]
              (⟨"Hematology", 350, 1⟩ : DeptStat).name).map priceOf).sum
            / ((deptGroup [sampleCBC, sampleLFT]
              (⟨"Hematology", 350, 1⟩ : DeptStat).name).length : ℚ))) :=
  ⟨by decide, (deptStats_spec [sampleCBC, sampleLFT]).2.2.2.1
    ⟨"Hematology", 350, 1⟩ (by decide)⟩

end Edos


